import Mathlib

/-!
# Verification of the pdftollstxt OCR route (`src/app/api/ocr/route.ts`)

A shallow embedding of the pure text-processing logic of the repository's
single API route.  Strings are modelled as `List Char`; each JavaScript
regex-replace pass of `optimizeForLLMs` is embedded as an executable scanner
that mirrors the left-to-right, leftmost-match semantics of
`String.prototype.replace` with a global regex.
-/

namespace PdfToLlms

/-- The character class of the JavaScript regex `\s` (and of `String.trim`):
WhiteSpace ∪ LineTerminator per ECMAScript. -/
def isJsWS (c : Char) : Bool :=
  c.val == 0x09 || c.val == 0x0a || c.val == 0x0b || c.val == 0x0c ||
  c.val == 0x0d || c.val == 0x20 || c.val == 0xa0 || c.val == 0x1680 ||
  (0x2000 ≤ c.val && c.val ≤ 0x200a) || c.val == 0x2028 || c.val == 0x2029 ||
  c.val == 0x202f || c.val == 0x205f || c.val == 0x3000 || c.val == 0xfeff

/-- ECMAScript LineTerminator characters: the positions after which the
multiline anchors `^` (and before which `$`) match. -/
def isLineTerm (c : Char) : Bool :=
  c.val == 0x0a || c.val == 0x0d || c.val == 0x2028 || c.val == 0x2029

/-- Space or tab: the character class `[ \t]` used by the
trailing-whitespace pass. -/
def isSpTab (c : Char) : Bool :=
  c == ' ' || c == '\t'

/-! ## Pass 1: `result.replace(/!\[([^\]]*)\]\([^)]+\)/g, "")`

`tryImage l` attempts to match the image regex at the head of `l`.  The
subpatterns `[^\]]*` and `[^)]+` are greedy character classes excluding the
following delimiter, so the match is deterministic: the alt text runs to the
first `]`, which must be followed by `(`, and the url runs to the first `)`
and must be nonempty.  On success the suffix after the match is returned. -/

/-- Consume one expected literal character. -/
def expectChar (c : Char) : List Char → Option (List Char)
  | d :: r => if d == c then some r else none
  | [] => none

def tryImage (l : List Char) : Option (List Char) := do
  let r ← expectChar '!' l
  let r ← expectChar '[' r
  let r ← expectChar ']' (r.dropWhile (fun c => !(c == ']')))
  let r ← expectChar '(' r
  if (r.takeWhile (fun c => !(c == ')'))).isEmpty then none else
  let r ← expectChar ')' (r.dropWhile (fun c => !(c == ')')))
  some r

theorem expectChar_some {c : Char} {l r : List Char} (h : expectChar c l = some r) :
    l = c :: r := by
  cases l with
  | nil => simp [expectChar] at h
  | cons d t =>
    simp only [expectChar] at h
    split at h
    · next hd => cases h; exact congrArg (· :: r) (by simpa using hd)
    · exact absurd h (by simp)

theorem tryImage_sublist {l rest : List Char} (h : tryImage l = some rest) :
    List.Sublist rest l ∧ rest.length + 1 < l.length := by
  simp only [tryImage, bind] at h
  cases h1 : expectChar '!' l with
  | none => rw [h1, Option.none_bind] at h; exact absurd h (by simp)
  | some ra =>
  rw [h1, Option.some_bind] at h
  cases h2 : expectChar '[' ra with
  | none => rw [h2, Option.none_bind] at h; exact absurd h (by simp)
  | some rb =>
  rw [h2, Option.some_bind] at h
  cases h3 : expectChar ']' (rb.dropWhile (fun c => !(c == ']'))) with
  | none => rw [h3, Option.none_bind] at h; exact absurd h (by simp)
  | some rc =>
  rw [h3, Option.some_bind] at h
  cases h4 : expectChar '(' rc with
  | none => rw [h4, Option.none_bind] at h; exact absurd h (by simp)
  | some rd =>
  rw [h4, Option.some_bind] at h
  split at h
  · exact absurd h (by simp)
  cases h5 : expectChar ')' (rd.dropWhile (fun c => !(c == ')'))) with
  | none => rw [h5, Option.none_bind] at h; exact absurd h (by simp)
  | some re =>
  rw [h5, Option.some_bind] at h
  cases h
  have e1 := expectChar_some h1
  have e2 := expectChar_some h2
  have e3 := expectChar_some h3
  have e4 := expectChar_some h4
  have e5 := expectChar_some h5
  have s3 : List.Sublist (']' :: rc) rb := e3 ▸ List.dropWhile_sublist _
  have s5 : List.Sublist (')' :: rest) rd := e5 ▸ List.dropWhile_sublist _
  have src : List.Sublist rest rd := (List.sublist_cons_self _ _).trans s5
  have srd : List.Sublist rd rc := e4 ▸ List.sublist_cons_self _ _
  have src2 : List.Sublist rest rb :=
    (src.trans srd).trans ((List.sublist_cons_self _ _).trans s3)
  constructor
  · rw [e1, e2]
    exact (src2.trans (List.sublist_cons_self _ _)).trans (List.sublist_cons_self _ _)
  · have l5 : rest.length + 1 ≤ rd.length := by
      simpa using s5.length_le
    have l4 : rd.length + 1 = rc.length := by rw [e4]; simp
    have l3 : rc.length + 1 ≤ rb.length := by
      simpa using s3.length_le
    have := src2.length_le
    rw [e1, e2]
    simp only [List.length_cons]
    omega

/-- Fuel-driven scanner for the global image-removal replace.  The fuel is an
upper bound on the number of scanning steps; `removeImages` supplies the list
length, which always suffices because each step consumes at least one input
character. -/
def removeImagesAux : Nat → List Char → List Char
  | 0, l => l
  | _ + 1, [] => []
  | fuel + 1, c :: r =>
    match tryImage (c :: r) with
    | some rest => removeImagesAux fuel rest
    | none => c :: removeImagesAux fuel r

/-- `result.replace(/!\[([^\]]*)\]\([^)]+\)/g, "")`. -/
def removeImages (l : List Char) : List Char :=
  removeImagesAux l.length l

/-- Does the image regex match anywhere in `l`?  (`l` contains a markdown
image reference iff this is `true`.) -/
def hasImage : List Char → Bool
  | [] => false
  | c :: r => (tryImage (c :: r)).isSome || hasImage r

/-! ## Pass 2: `result.replace(/<img[^>]*>/g, "")` -/

/-- Attempt to match `<img[^>]*>` at the head of the list. -/
def tryImgTag (l : List Char) : Option (List Char) := do
  let r ← expectChar '<' l
  let r ← expectChar 'i' r
  let r ← expectChar 'm' r
  let r ← expectChar 'g' r
  let r ← expectChar '>' (r.dropWhile (fun c => !(c == '>')))
  some r

theorem tryImgTag_sublist {l rest : List Char} (h : tryImgTag l = some rest) :
    List.Sublist rest l ∧ rest.length + 1 < l.length := by
  simp only [tryImgTag, bind] at h
  cases h1 : expectChar '<' l with
  | none => rw [h1, Option.none_bind] at h; exact absurd h (by simp)
  | some ra =>
  rw [h1, Option.some_bind] at h
  cases h2 : expectChar 'i' ra with
  | none => rw [h2, Option.none_bind] at h; exact absurd h (by simp)
  | some rb =>
  rw [h2, Option.some_bind] at h
  cases h3 : expectChar 'm' rb with
  | none => rw [h3, Option.none_bind] at h; exact absurd h (by simp)
  | some rc =>
  rw [h3, Option.some_bind] at h
  cases h4 : expectChar 'g' rc with
  | none => rw [h4, Option.none_bind] at h; exact absurd h (by simp)
  | some rd =>
  rw [h4, Option.some_bind] at h
  cases h5 : expectChar '>' (rd.dropWhile (fun c => !(c == '>'))) with
  | none => rw [h5, Option.none_bind] at h; exact absurd h (by simp)
  | some re =>
  rw [h5, Option.some_bind] at h
  cases h
  have e1 := expectChar_some h1
  have e2 := expectChar_some h2
  have e3 := expectChar_some h3
  have e4 := expectChar_some h4
  have e5 := expectChar_some h5
  have s5 : List.Sublist ('>' :: rest) rd := e5 ▸ List.dropWhile_sublist _
  have srd : List.Sublist rest rd := (List.sublist_cons_self _ _).trans s5
  constructor
  · rw [e1, e2, e3, e4]
    exact ((((srd.trans (List.sublist_cons_self _ _)).trans
      (List.sublist_cons_self _ _)).trans
      (List.sublist_cons_self _ _)).trans (List.sublist_cons_self _ _))
  · have l5 : rest.length + 1 ≤ rd.length := by simpa using s5.length_le
    rw [e1, e2, e3, e4]
    simp only [List.length_cons]
    omega

/-- Fuel-driven scanner for the img-tag removal replace. -/
def removeImgTagsAux : Nat → List Char → List Char
  | 0, l => l
  | _ + 1, [] => []
  | fuel + 1, c :: r =>
    match tryImgTag (c :: r) with
    | some rest => removeImgTagsAux fuel rest
    | none => c :: removeImgTagsAux fuel r

/-- `result.replace(/<img[^>]*>/g, "")`. -/
def removeImgTags (l : List Char) : List Char :=
  removeImgTagsAux l.length l

/-! ## Pass 3: `result.replace(/^(#{1,6})\s+/gm, (m, hashes) => hashes + " ")`

A left-to-right scan.  With the `m` flag, `^` matches at the start of the
input and after every LineTerminator.  At such a position a run of 1-6 `#`
followed by at least one `\s` character (which includes line terminators!)
is replaced by the hashes and a single space; the scan resumes after the
consumed whitespace run, whose final character determines whether the resume
position is again a line start.  A run of 7+ hashes never matches (every
backtracked shorter hash run is followed by `#`, not whitespace). -/

/-- Scanner state for the heading pass: scanning normally (with a flag
telling whether the current position is a line start), inside a candidate
run of `#`, or inside the whitespace run after 1-6 hashes (remembering
whether the last whitespace seen was a line terminator). -/
inductive HState where
  | norm (atLineStart : Bool)
  | hash (k : Nat)
  | ws (k : Nat) (lastWasTerm : Bool)
deriving DecidableEq

def hGo : HState → List Char → List Char
  | .norm _, [] => []
  | .hash k, [] => List.replicate k '#'
  | .ws k _, [] => List.replicate k '#' ++ [' ']
  | .norm a, c :: r =>
    if a && (c == '#') then hGo (.hash 1) r
    else c :: hGo (.norm (isLineTerm c)) r
  | .hash k, c :: r =>
    if c == '#' then hGo (.hash (k + 1)) r
    else if k ≤ 6 && isJsWS c then hGo (.ws k (isLineTerm c)) r
    else List.replicate k '#' ++ c :: hGo (.norm (isLineTerm c)) r
  | .ws k lt, c :: r =>
    if isJsWS c then hGo (.ws k (isLineTerm c)) r
    else
      List.replicate k '#' ++ ' ' ::
        (if lt && (c == '#') then hGo (.hash 1) r
         else c :: hGo (.norm (isLineTerm c)) r)

/-- `result.replace(/^(#{1,6})\s+/gm, (match, hashes) => hashes + " ")`. -/
def headingNormalize (l : List Char) : List Char :=
  hGo (.norm true) l

/-! ## Pass 4: `result.replace(/\n{4,}/g, "\n\n\n")`

Every maximal run of `k ≥ 4` newlines is replaced by exactly 3 newlines;
shorter runs are untouched.  `n` counts the newlines of the run currently
being consumed. -/

def collapseGo : Nat → List Char → List Char
  | n, [] => List.replicate (min n 3) '\n'
  | n, c :: r =>
    if c == '\n' then collapseGo (n + 1) r
    else List.replicate (min n 3) '\n' ++ c :: collapseGo 0 r

/-- `result.replace(/\n{4,}/g, "\n\n\n")`. -/
def collapseNewlines (l : List Char) : List Char :=
  collapseGo 0 l

/-! ## Pass 5: `result.replace(/[ \t]+$/gm, "")`

With the `m` flag, `$` matches at the end of the input and before every
LineTerminator.  So every maximal run of spaces/tabs immediately followed by
a line terminator or by the end of input is deleted; other space/tab runs
are kept.  `pend` buffers the space/tab run currently being consumed. -/

def stripGo : List Char → List Char → List Char
  | _, [] => []
  | pend, c :: r =>
    if isSpTab c then stripGo (pend ++ [c]) r
    else if isLineTerm c then c :: stripGo [] r
    else pend ++ c :: stripGo [] r

/-- `result.replace(/[ \t]+$/gm, "")`. -/
def stripTrailingWS (l : List Char) : List Char :=
  stripGo [] l

/-! ## The normalizer -/

/-- The whole `optimizeForLLMs` pipeline from `src/app/api/ocr/route.ts`:
image removal, img-tag removal, heading normalization, blank-line
collapsing, per-line trailing-whitespace stripping, `trimStart()`,
`trimEnd()`, and the final `+ "\n"`. -/
def optimizeForLLMs (l : List Char) : List Char :=
  let r1 := removeImages l
  let r2 := removeImgTags r1
  let r3 := headingNormalize r2
  let r4 := collapseNewlines r3
  let r5 := stripTrailingWS r4
  let r6 := r5.dropWhile isJsWS
  let r7 := r6.rdropWhile isJsWS
  r7 ++ ['\n']

example : optimizeForLLMs "#Heading\n\n\n\n\nText  \n".data = "#Heading\n\n\nText\n".data := by decide
example : optimizeForLLMs "".data = ['\n'] := by decide
example : optimizeForLLMs "  \n \t".data = ['\n'] := by decide
example : optimizeForLLMs "!![x](y)[a](b)".data = "![a](b)\n".data := by decide
example : optimizeForLLMs "A\n\n \n\nB".data = "A\n\n\n\nB\n".data := by decide
example : optimizeForLLMs " ##  A".data = "##  A\n".data := by decide
example : optimizeForLLMs "##  A\n".data = "## A\n".data := by decide
example : headingNormalize "#\nText".data = "# Text".data := by decide
example : headingNormalize "####### x".data = "####### x".data := by decide
example : headingNormalize "###   x".data = "### x".data := by decide
example : optimizeForLLMs "#  Head\tx\n\n\n\n\n\nZ<img src=3>W![i](u)V".data = "# Head\tx\n\n\nZWV\n".data := by decide

/-! ## Iterated image removal (for the amended C4 claim) -/

theorem removeImagesAux_length_le : ∀ (fuel : Nat) (l : List Char),
    (removeImagesAux fuel l).length ≤ l.length := by
  intro fuel
  induction fuel with
  | zero => intro l; simp [removeImagesAux]
  | succ f ih =>
    intro l
    match l with
    | [] => simp [removeImagesAux]
    | c :: r =>
      rw [removeImagesAux]
      cases htry : tryImage (c :: r) with
      | some rest =>
        have h1 := (tryImage_sublist htry).2
        have h2 := ih rest
        have h3 : (c :: r).length = r.length + 1 := rfl
        simp only [List.length_cons]
        omega
      | none =>
        have := ih r
        simp only [List.length_cons]
        omega

theorem removeImages_length_le (l : List Char) :
    (removeImages l).length ≤ l.length :=
  removeImagesAux_length_le l.length l

/-- Iterate `removeImages` until it reaches a fixpoint; since a productive
pass strictly shrinks the string, `l.length` rounds always suffice. -/
def removeImagesIterAux : Nat → List Char → List Char
  | 0, l => l
  | f + 1, l =>
    let l' := removeImages l
    if l' = l then l else removeImagesIterAux f l'

def removeImagesIter (l : List Char) : List Char :=
  removeImagesIterAux l.length l

/-! ## The Mistral dispatcher's page concatenation
(`processWithMistral`, `src/app/api/ocr/route.ts` lines 51-60) -/

/-- The per-page header `"\n\n---\n\n## Page " + (index+1) + "\n\n"` added
when more than one page is present. -/
def pageHeader (n : Nat) : List Char :=
  "\n\n---\n\n## Page ".data ++ (Nat.repr n).data ++ "\n\n".data

/-- `pages.map((page, index) => pageHeader + (page.markdown || "")).flatten("")`.
A page whose `markdown` field is absent (`none`) contributes `""`. -/
def mistralConcat (pages : List (Option (List Char))) : List Char :=
  (pages.enum.map fun ip =>
    (if 1 < pages.length then pageHeader (ip.1 + 1) else []) ++ ip.2.getD []).flatten

/-- Number of positions of `l` at which the pattern `pat` occurs. -/
def countOcc (pat : List Char) : List Char → Nat
  | [] => 0
  | c :: r => (if pat.isPrefixOf (c :: r) then 1 else 0) + countOcc pat r

example :
    mistralConcat [some "A".data, some "B".data, some "C".data] =
      "\n\n---\n\n## Page 1\n\nA\n\n---\n\n## Page 2\n\nB\n\n---\n\n## Page 3\n\nC".data := by
  decide
example : countOcc "## Page".data (mistralConcat [some "A".data, some "B".data, some "C".data]) = 3 := by decide
example : mistralConcat [some "A".data] = "A".data := by decide

/-! ## The OpenAI dispatcher (`processWithOpenAI`, lines 90-105) -/

/-- One entry of `response.output[i].content`: only `output_text` parts
contribute text. -/
inductive OAContent where
  | outputText (t : List Char)
  | other
deriving DecidableEq

/-- One entry of `response.output`: only `message` items are scanned. -/
inductive OAItem where
  | message (content : List OAContent)
  | other
deriving DecidableEq

/-- The extraction loop: concatenate the text of every `output_text` content
part of every `message` item, in order. -/
def extractText (items : List OAItem) : List Char :=
  (items.map fun it =>
    match it with
    | .message cs =>
      (cs.map fun c =>
        match c with
        | .outputText t => t
        | .other => []).flatten
    | .other => []).flatten

/-- `Math.max(1, Math.ceil(len / 3000))` for a natural `len`: for naturals,
`Math.ceil(len / 3000)` is `(len + 2999) / 3000` in integer arithmetic. -/
def estimatePages (len : Nat) : Nat :=
  max 1 ((len + 2999) / 3000)

/-- A `{ text, pageCount }` result as produced by either provider branch. -/
structure OcrResult where
  text : List Char
  pageCount : Nat
deriving DecidableEq

/-- The pure part of `processWithOpenAI`: extract the text from the response
items and estimate the page count. -/
def processWithOpenAI (items : List OAItem) : OcrResult :=
  { text := extractText items
    pageCount := estimatePages (extractText items).length }

/-! ## The POST handler (`POST`, lines 108-153)

The handler's interaction with the outside world (form parsing, base64
encoding, the two network calls) is abstracted: the two provider results are
passed as oracle values, so that "the provider is never called" becomes
"the response does not depend on the oracle values".  Only the fields the
handler actually inspects are modelled. -/

/-- The fields of the uploaded `File` the handler reads: `name` and the
declared content `type`. -/
structure FileModel where
  name : List Char
  type : List Char
deriving DecidableEq

/-- The form data: an optional `file` field and an optional `provider`
field (absent field ⇒ `null` ⇒ `none`). -/
structure FormData where
  file : Option FileModel
  provider : Option (List Char)
deriving DecidableEq

/-- `(formData.get("provider") as string) || "mistral"`: `null` and the
empty string (both falsy) default to `"mistral"`; any other string, however
unrecognized, is kept. -/
def resolveProvider : Option (List Char) → List Char
  | none => "mistral".data
  | some p => if p = [] then "mistral".data else p

/-- A JSON response: HTTP status plus either the success payload
`{ text, pageCount, filename, provider }` or `{ error }`. -/
inductive ApiResponse where
  | success (text : List Char) (pageCount : Nat) (filename : List Char) (provider : List Char)
  | error (status : Nat) (msg : List Char)
deriving DecidableEq

/-- The POST handler: provider resolution, the two 400 validations, dispatch
on `provider === "openai"`, normalization, and response assembly. -/
def POST (form : FormData) (mistralRes openaiRes : OcrResult) : ApiResponse :=
  let provider := resolveProvider form.provider
  match form.file with
  | none => .error 400 "No file provided".data
  | some f =>
    if f.type = "application/pdf".data then
      let result := if provider = "openai".data then openaiRes else mistralRes
      .success (optimizeForLLMs result.text) result.pageCount f.name provider
    else
      .error 400 "Only PDF files are supported".data

/-! ## Trailing-newline counting (for C7) -/

/-- The length of the maximal run of `'\n'` at the end of `l`. -/
def trailingNewlineCount (l : List Char) : Nat :=
  (l.reverse.takeWhile fun c => c == '\n').length

example : trailingNewlineCount "ab\n".data = 1 := by decide
example : trailingNewlineCount "ab\n\n".data = 2 := by decide

/-! ## No-long-newline-run machinery -/

/-- `l` contains no run of 4 (hence of more than 3) consecutive newlines. -/
def noRun4 (l : List Char) : Prop :=
  ¬ List.replicate 4 '\n' <:+: l

theorem noRun4_of_infix {l x : List Char} (h : noRun4 l) (hx : x <:+: l) : noRun4 x :=
  fun hc => h (hc.trans hx)

theorem noRun4_replicate {m : Nat} (hm : m ≤ 3) : noRun4 (List.replicate m '\n') := by
  intro h
  rw [List.isInfix_replicate_iff] at h
  simp only [List.length_replicate] at h
  omega

theorem noRun4_cons {c : Char} {l : List Char} (hc : c ≠ '\n') (h : noRun4 l) :
    noRun4 (c :: l) := by
  rintro ⟨s, t, hst⟩
  cases s with
  | nil =>
    simp only [List.nil_append] at hst
    have : c = '\n' := by
      have := congrArg List.head? hst
      simpa [List.replicate_succ] using this.symm
    exact hc this
  | cons a s' =>
    apply h
    simp only [List.cons_append] at hst
    obtain ⟨-, h2⟩ := List.cons.inj hst
    exact ⟨s', t, h2⟩

theorem prefix_replicate_cons {k : Nat} {a b : α} {z : List α}
    (h : List.replicate (k + 1) a <+: b :: z) : a = b ∧ List.replicate k a <+: z := by
  obtain ⟨t, ht⟩ := h
  rw [List.replicate_succ, List.cons_append] at ht
  obtain ⟨h1, h2⟩ := List.cons.inj ht
  exact ⟨h1, ⟨t, h2⟩⟩

theorem noRun4_replicate_append {m : Nat} {c : Char} {y : List Char} (hm : m ≤ 3)
    (hc : c ≠ '\n') (h : noRun4 (c :: y)) :
    noRun4 (List.replicate m '\n' ++ c :: y) := by
  induction m with
  | zero => simpa using h
  | succ n ih =>
    have hn : n ≤ 3 := by omega
    rw [List.replicate_succ, List.cons_append]
    intro hinf
    rcases List.infix_cons_iff.mp hinf with hpre | htail
    · -- a prefix starting with the first of the n+1 newlines
      have h2 := (prefix_replicate_cons (k := 3) hpre).2
      -- the remaining three newlines must be a prefix of `replicate n '\n' ++ c :: y`
      match n, hn with
      | 0, _ => exact hc (prefix_replicate_cons (k := 2) h2).1.symm
      | 1, _ =>
        have h3 := (prefix_replicate_cons (k := 2) h2).2
        exact hc (prefix_replicate_cons (k := 1) h3).1.symm
      | 2, _ =>
        have h3 := (prefix_replicate_cons (k := 2) h2).2
        have h4 := (prefix_replicate_cons (k := 1) h3).2
        exact hc (prefix_replicate_cons (k := 0) h4).1.symm
      | 3, _ =>
        -- then the whole list begins with 4 newlines and `hm` is violated
        omega
    · exact ih hn htail

theorem noRun4_append_newline {t : List Char} (h : noRun4 t)
    (hlast : t = [] ∨ t.getLast? ≠ some '\n') : noRun4 (t ++ ['\n']) := by
  intro hinf
  rw [← List.reverse_infix, List.reverse_append, List.reverse_replicate] at hinf
  simp only [List.reverse_cons, List.reverse_nil, List.nil_append, List.singleton_append] at hinf
  rcases List.infix_cons_iff.mp hinf with hpre | htail
  · have h2 := (prefix_replicate_cons (k := 3) hpre).2
    cases hrev : t.reverse with
    | nil => simp [hrev] at h2
    | cons b z =>
      have hb := (prefix_replicate_cons (k := 2) (hrev ▸ h2)).1
      rcases hlast with rfl | hlast
      · simp at hrev
      · apply hlast
        rw [← List.head?_reverse, hrev, ← hb]
        rfl
  · apply h
    rw [← List.reverse_infix, List.reverse_replicate]
    simpa using htail

theorem noRun4_collapseGo : ∀ (l : List Char) (n : Nat), noRun4 (collapseGo n l) := by
  intro l
  induction l with
  | nil => intro n; rw [collapseGo]; exact noRun4_replicate (Nat.min_le_right n 3)
  | cons c r ih =>
    intro n
    rw [collapseGo]
    split
    · exact ih (n + 1)
    · next hc =>
      have hc' : c ≠ '\n' := by simpa using hc
      exact noRun4_replicate_append (Nat.min_le_right n 3) hc' (noRun4_cons hc' (ih 0))

theorem noRun4_collapseNewlines (l : List Char) : noRun4 (collapseNewlines l) :=
  noRun4_collapseGo l 0

theorem collapseGo_eq_self : ∀ (l : List Char) (n : Nat), n ≤ 3 →
    noRun4 (List.replicate n '\n' ++ l) → collapseGo n l = List.replicate n '\n' ++ l := by
  intro l
  induction l with
  | nil =>
    intro n hn _
    rw [collapseGo, Nat.min_eq_left hn, List.append_nil]
  | cons c r ih =>
    intro n hn hruns
    rw [collapseGo]
    split
    · next hc =>
      have hc' : c = '\n' := by simpa using hc
      subst hc'
      have hshift : List.replicate n '\n' ++ '\n' :: r = List.replicate (n + 1) '\n' ++ r := by
        rw [List.replicate_succ' n '\n', List.append_assoc]
        rfl
      have hn1 : n + 1 ≤ 3 := by
        by_contra hgt
        have hn3 : n = 3 := by omega
        subst hn3
        apply hruns
        apply List.IsPrefix.isInfix
        exact ⟨r, by rw [hshift]⟩
      rw [hshift] at hruns ⊢
      exact ih (n + 1) hn1 hruns
    · next hc =>
      have hc' : c ≠ '\n' := by simpa using hc
      rw [Nat.min_eq_left hn]
      have hsf : r <:+ List.replicate n '\n' ++ c :: r :=
        (List.suffix_cons c r).trans (List.suffix_append _ _)
      have h0 : collapseGo 0 r = r := by
        have := ih 0 (by omega) (by simpa using noRun4_of_infix hruns hsf.isInfix)
        simpa using this
      rw [h0]

theorem collapseNewlines_eq_self {l : List Char} (h : noRun4 l) :
    collapseNewlines l = l := by
  have := collapseGo_eq_self l 0 (by omega) (by simpa using h)
  simpa [collapseNewlines] using this

/-! ## Identity and character-subset lemmas for the passes -/

theorem tryImage_none_of_head {c : Char} {r : List Char} (hc : c ≠ '!') :
    tryImage (c :: r) = none := by
  have : expectChar '!' (c :: r) = none := by
    simp [expectChar, hc]
  simp [tryImage, bind, this]

theorem tryImgTag_none_of_head {c : Char} {r : List Char} (hc : c ≠ '<') :
    tryImgTag (c :: r) = none := by
  have : expectChar '<' (c :: r) = none := by
    simp [expectChar, hc]
  simp [tryImgTag, bind, this]

theorem removeImagesAux_eq_self {l : List Char} (h : ∀ c ∈ l, c ≠ '!') :
    ∀ fuel, removeImagesAux fuel l = l := by
  induction l with
  | nil => intro fuel; cases fuel <;> rfl
  | cons c r ih =>
    intro fuel
    cases fuel with
    | zero => rfl
    | succ f =>
      rw [removeImagesAux, tryImage_none_of_head (h c (by simp))]
      rw [ih (fun x hx => h x (by simp [hx])) f]

theorem removeImages_eq_self {l : List Char} (h : ∀ c ∈ l, c ≠ '!') :
    removeImages l = l :=
  removeImagesAux_eq_self h l.length

theorem removeImgTagsAux_eq_self {l : List Char} (h : ∀ c ∈ l, c ≠ '<') :
    ∀ fuel, removeImgTagsAux fuel l = l := by
  induction l with
  | nil => intro fuel; cases fuel <;> rfl
  | cons c r ih =>
    intro fuel
    cases fuel with
    | zero => rfl
    | succ f =>
      rw [removeImgTagsAux, tryImgTag_none_of_head (h c (by simp))]
      rw [ih (fun x hx => h x (by simp [hx])) f]

theorem removeImgTags_eq_self {l : List Char} (h : ∀ c ∈ l, c ≠ '<') :
    removeImgTags l = l :=
  removeImgTagsAux_eq_self h l.length

theorem mem_removeImagesAux : ∀ (fuel : Nat) (l : List Char) (c : Char),
    c ∈ removeImagesAux fuel l → c ∈ l := by
  intro fuel
  induction fuel with
  | zero => intro l c hc; simpa [removeImagesAux] using hc
  | succ f ih =>
    intro l c hc
    match l with
    | [] => simpa [removeImagesAux] using hc
    | d :: r =>
      rw [removeImagesAux] at hc
      cases htry : tryImage (d :: r) with
      | some rest =>
        rw [htry] at hc
        exact (tryImage_sublist htry).1.subset (ih rest c hc)
      | none =>
        rw [htry] at hc
        rcases List.mem_cons.mp hc with rfl | hmem
        · exact List.mem_cons_self _ _
        · exact List.mem_cons_of_mem _ (ih r c hmem)

theorem mem_removeImages {l : List Char} {c : Char} (h : c ∈ removeImages l) : c ∈ l :=
  mem_removeImagesAux l.length l c h

theorem mem_removeImgTagsAux : ∀ (fuel : Nat) (l : List Char) (c : Char),
    c ∈ removeImgTagsAux fuel l → c ∈ l := by
  intro fuel
  induction fuel with
  | zero => intro l c hc; simpa [removeImgTagsAux] using hc
  | succ f ih =>
    intro l c hc
    match l with
    | [] => simpa [removeImgTagsAux] using hc
    | d :: r =>
      rw [removeImgTagsAux] at hc
      cases htry : tryImgTag (d :: r) with
      | some rest =>
        rw [htry] at hc
        exact (tryImgTag_sublist htry).1.subset (ih rest c hc)
      | none =>
        rw [htry] at hc
        rcases List.mem_cons.mp hc with rfl | hmem
        · exact List.mem_cons_self _ _
        · exact List.mem_cons_of_mem _ (ih r c hmem)

theorem mem_removeImgTags {l : List Char} {c : Char} (h : c ∈ removeImgTags l) : c ∈ l :=
  mem_removeImgTagsAux l.length l c h

theorem hGo_norm_eq_self {l : List Char} (h : ∀ c ∈ l, c ≠ '#') :
    ∀ a, hGo (.norm a) l = l := by
  induction l with
  | nil => intro a; rfl
  | cons c r ih =>
    intro a
    have hc : (c == '#') = false := by
      simpa using h c (by simp)
    have hrec := ih (fun x hx => h x (by simp [hx])) (isLineTerm c)
    simp [hGo, hc, hrec]

theorem headingNormalize_eq_self {l : List Char} (h : ∀ c ∈ l, c ≠ '#') :
    headingNormalize l = l :=
  hGo_norm_eq_self h true

theorem mem_collapseGo : ∀ (l : List Char) (n : Nat) (c : Char),
    c ∈ collapseGo n l → c = '\n' ∨ c ∈ l := by
  intro l
  induction l with
  | nil =>
    intro n c hc
    rw [collapseGo] at hc
    exact Or.inl (List.eq_of_mem_replicate hc)
  | cons d r ih =>
    intro n c hc
    rw [collapseGo] at hc
    split at hc
    · rcases ih (n + 1) c hc with h | h
      · exact Or.inl h
      · exact Or.inr (List.mem_cons_of_mem _ h)
    · rcases List.mem_append.mp hc with h | h
      · exact Or.inl (List.eq_of_mem_replicate h)
      · rcases List.mem_cons.mp h with rfl | h
        · exact Or.inr (List.mem_cons_self _ _)
        · rcases ih 0 c h with h' | h'
          · exact Or.inl h'
          · exact Or.inr (List.mem_cons_of_mem _ h')

theorem mem_collapseNewlines {l : List Char} {c : Char} (h : c ∈ collapseNewlines l) :
    c = '\n' ∨ c ∈ l :=
  mem_collapseGo l 0 c h

theorem mem_stripGo : ∀ (l pend : List Char) (c : Char),
    c ∈ stripGo pend l → c ∈ pend ∨ c ∈ l := by
  intro l
  induction l with
  | nil => intro pend c hc; simp [stripGo] at hc
  | cons d r ih =>
    intro pend c hc
    rw [stripGo] at hc
    split at hc
    · rcases ih (pend ++ [d]) c hc with h | h
      · rcases List.mem_append.mp h with h' | h'
        · exact Or.inl h'
        · exact Or.inr (by simp at h'; simp [h'])
      · exact Or.inr (List.mem_cons_of_mem _ h)
    · split at hc
      · rcases List.mem_cons.mp hc with rfl | h
        · exact Or.inr (List.mem_cons_self _ _)
        · rcases ih [] c h with h' | h'
          · simp at h'
          · exact Or.inr (List.mem_cons_of_mem _ h')
      · rcases List.mem_append.mp hc with h | h
        · exact Or.inl h
        · rcases List.mem_cons.mp h with rfl | h'
          · exact Or.inr (List.mem_cons_self _ _)
          · rcases ih [] c h' with h'' | h''
            · simp at h''
            · exact Or.inr (List.mem_cons_of_mem _ h'')

theorem mem_stripTrailingWS {l : List Char} {c : Char} (h : c ∈ stripTrailingWS l) :
    c ∈ l := by
  rcases mem_stripGo l [] c h with h' | h'
  · simp at h'
  · exact h'

theorem stripGo_eq_self {l : List Char} (h : ∀ c ∈ l, isSpTab c = false) :
    stripGo [] l = l := by
  induction l with
  | nil => rfl
  | cons c r ih =>
    rw [stripGo, if_neg (by simp [h c (by simp)])]
    have ihr := ih (fun x hx => h x (by simp [hx]))
    split
    · rw [ihr]
    · rw [ihr]; rfl

theorem stripTrailingWS_eq_self {l : List Char} (h : ∀ c ∈ l, isSpTab c = false) :
    stripTrailingWS l = l :=
  stripGo_eq_self h

/-! ## Structure of the normalizer output -/

theorem optimizeForLLMs_def (l : List Char) :
    optimizeForLLMs l =
      ((stripTrailingWS (collapseNewlines (headingNormalize (removeImgTags
        (removeImages l))))).dropWhile isJsWS).rdropWhile isJsWS ++ ['\n'] :=
  rfl

theorem trailingNewlineCount_append_one {t : List Char}
    (h : t = [] ∨ t.getLast? ≠ some '\n') :
    trailingNewlineCount (t ++ ['\n']) = 1 := by
  unfold trailingNewlineCount
  rw [List.reverse_append]
  simp only [List.reverse_cons, List.reverse_nil, List.nil_append, List.singleton_append]
  rw [List.takeWhile_cons]
  simp only [beq_self_eq_true, if_true]
  have hz : (t.reverse.takeWhile fun c => c == '\n') = [] := by
    cases hrev : t.reverse with
    | nil => rfl
    | cons b z =>
      rcases h with rfl | h
      · simp at hrev
      · have hb : t.getLast? = some b := by
          rw [← List.head?_reverse, hrev]; rfl
        have : (b == '\n') = false := by
          simp only [beq_eq_false_iff_ne]
          intro hbe
          exact h (by rw [hb, hbe])
        rw [List.takeWhile_cons, this]
        simp
  rw [hz]
  rfl

/-- The `rdropWhile` result ends in a non-matching character (or is empty),
restated through `getLast?`. -/
theorem rdropWhile_getLast?_ne {p : Char → Bool} {l : List Char} {c : Char}
    (hc : p c = true) :
    l.rdropWhile p = [] ∨ (l.rdropWhile p).getLast? ≠ some c := by
  by_cases hne : l.rdropWhile p = []
  · exact Or.inl hne
  · right
    have hlast := List.rdropWhile_last_not p l hne
    rw [List.getLast?_eq_getLast _ hne]
    intro hsome
    exact hlast (by rw [Option.some.inj hsome, hc])

theorem isJsWS_newline : isJsWS '\n' = true := by decide

theorem trailingNewlineCount_optimize (s : List Char) :
    trailingNewlineCount (optimizeForLLMs s) = 1 := by
  rw [optimizeForLLMs_def]
  exact trailingNewlineCount_append_one (rdropWhile_getLast?_ne isJsWS_newline)

/-! ## Whitespace-only inputs -/

theorem ne_bang_of_isJsWS {c : Char} (h : isJsWS c = true) : c ≠ '!' := by
  intro hc; subst hc; exact absurd h (by decide)

theorem ne_lt_of_isJsWS {c : Char} (h : isJsWS c = true) : c ≠ '<' := by
  intro hc; subst hc; exact absurd h (by decide)

theorem ne_hash_of_isJsWS {c : Char} (h : isJsWS c = true) : c ≠ '#' := by
  intro hc; subst hc; exact absurd h (by decide)

theorem optimizeForLLMs_all_ws {s : List Char} (h : ∀ c ∈ s, isJsWS c = true) :
    optimizeForLLMs s = ['\n'] := by
  rw [optimizeForLLMs_def]
  rw [removeImages_eq_self (fun c hc => ne_bang_of_isJsWS (h c hc))]
  rw [removeImgTags_eq_self (fun c hc => ne_lt_of_isJsWS (h c hc))]
  rw [headingNormalize_eq_self (fun c hc => ne_hash_of_isJsWS (h c hc))]
  have h4 : ∀ c ∈ stripTrailingWS (collapseNewlines s), isJsWS c = true := by
    intro c hc
    rcases mem_collapseNewlines (mem_stripTrailingWS hc) with rfl | hmem
    · exact isJsWS_newline
    · exact h c hmem
  rw [List.dropWhile_eq_nil_iff.mpr h4, List.rdropWhile_nil]
  rfl

/-! ## Clean inputs: no `#`, no space/tab (and for idempotence no `!`, `<`) -/

theorem stripTrailingWS_collapse_eq {l : List Char} (hsptab : ∀ c ∈ l, isSpTab c = false) :
    stripTrailingWS (collapseNewlines l) = collapseNewlines l := by
  apply stripTrailingWS_eq_self
  intro c hc
  rcases mem_collapseNewlines hc with rfl | hmem
  · decide
  · exact hsptab c hmem

/-- On inputs without `#`, spaces, and tabs, the normalizer reduces to
collapse + trims, and its output has no run of 4 newlines. -/
theorem optimize_eq_of_no_hash_sptab {l : List Char}
    (hhash : ∀ c ∈ l, c ≠ '#') (hsptab : ∀ c ∈ l, isSpTab c = false) :
    optimizeForLLMs l =
      (((collapseNewlines (removeImgTags (removeImages l))).dropWhile
        isJsWS).rdropWhile isJsWS) ++ ['\n'] := by
  rw [optimizeForLLMs_def]
  have h1 : ∀ c ∈ removeImgTags (removeImages l), c ≠ '#' :=
    fun c hc => hhash c (mem_removeImages (mem_removeImgTags hc))
  have h2 : ∀ c ∈ removeImgTags (removeImages l), isSpTab c = false :=
    fun c hc => hsptab c (mem_removeImages (mem_removeImgTags hc))
  rw [headingNormalize_eq_self h1, stripTrailingWS_collapse_eq h2]

theorem noRun4_optimize_of_no_hash_sptab {l : List Char}
    (hhash : ∀ c ∈ l, c ≠ '#') (hsptab : ∀ c ∈ l, isSpTab c = false) :
    noRun4 (optimizeForLLMs l) := by
  rw [optimize_eq_of_no_hash_sptab hhash hsptab]
  apply noRun4_append_newline
  · apply noRun4_of_infix (noRun4_collapseNewlines (removeImgTags (removeImages l)))
    exact ((List.rdropWhile_prefix _ _).isInfix).trans (List.dropWhile_suffix _).isInfix
  · exact rdropWhile_getLast?_ne isJsWS_newline

/-! ## Idempotence on clean inputs -/

/-- On inputs that additionally contain no `!` and no `<`, the first three
passes are the identity. -/
theorem optimize_eq_of_clean {l : List Char}
    (hb : ∀ c ∈ l, c ≠ '!') (hl : ∀ c ∈ l, c ≠ '<')
    (hh : ∀ c ∈ l, c ≠ '#') (hs : ∀ c ∈ l, isSpTab c = false) :
    optimizeForLLMs l =
      ((collapseNewlines l).dropWhile isJsWS).rdropWhile isJsWS ++ ['\n'] := by
  rw [optimize_eq_of_no_hash_sptab hh hs, removeImages_eq_self hb, removeImgTags_eq_self hl]

theorem mem_optimize_of_clean {l : List Char} {c : Char}
    (hb : ∀ c ∈ l, c ≠ '!') (hl : ∀ c ∈ l, c ≠ '<')
    (hh : ∀ c ∈ l, c ≠ '#') (hs : ∀ c ∈ l, isSpTab c = false)
    (hc : c ∈ optimizeForLLMs l) : c = '\n' ∨ c ∈ l := by
  rw [optimize_eq_of_clean hb hl hh hs] at hc
  rcases List.mem_append.mp hc with hmem | hmem
  · have h1 := (List.rdropWhile_prefix isJsWS _).sublist.subset hmem
    have h2 := (List.dropWhile_sublist _).subset h1
    exact mem_collapseNewlines h2
  · exact Or.inl (by simpa using hmem)

theorem dropWhile_head_not {p : Char → Bool} {l : List Char} {d : Char} {t : List Char}
    (h : l.dropWhile p = d :: t) : p d = false := by
  induction l with
  | nil => simp at h
  | cons a r ih =>
    rw [List.dropWhile_cons] at h
    split at h
    · exact ih h
    · next hpa => cases h; simpa using hpa

/-- Trimming with `dropWhile`/`rdropWhile` and appending a newline is stable
under a second round of the same operations. -/
theorem trim_append_stable {p : Char → Bool} (hnl : p '\n' = true) (x : List Char) :
    (((x.dropWhile p).rdropWhile p ++ ['\n']).dropWhile p).rdropWhile p ++ ['\n'] =
      (x.dropWhile p).rdropWhile p ++ ['\n'] := by
  cases hcase : (x.dropWhile p).rdropWhile p with
  | nil =>
    rw [List.nil_append]
    rw [show (['\n'] : List Char).dropWhile p = [] from by
      rw [List.dropWhile_cons_of_pos hnl]; rfl]
    rw [List.rdropWhile_nil, List.nil_append]
  | cons d t =>
    obtain ⟨u, hu⟩ := List.rdropWhile_prefix p (x.dropWhile p)
    rw [hcase] at hu
    have hxd : x.dropWhile p = d :: (t ++ u) := by rw [← hu]; rfl
    have hd : p d = false := dropWhile_head_not hxd
    have h1 : ((d :: t) ++ ['\n']).dropWhile p = (d :: t) ++ ['\n'] := by
      rw [List.cons_append, List.dropWhile_cons_of_neg (by simp [hd])]
    rw [h1]
    have h2 : ((d :: t) ++ ['\n']).rdropWhile p = d :: t := by
      rw [List.rdropWhile_concat_pos p (d :: t) '\n' hnl]
      rw [← hcase, List.rdropWhile_idempotent, hcase]
    rw [h2]

theorem optimize_idempotent_of_clean {l : List Char}
    (h : ∀ c ∈ l, c ≠ '!' ∧ c ≠ '<' ∧ c ≠ '#' ∧ isSpTab c = false) :
    optimizeForLLMs (optimizeForLLMs l) = optimizeForLLMs l := by
  have hb : ∀ c ∈ l, c ≠ '!' := fun c hc => (h c hc).1
  have hl : ∀ c ∈ l, c ≠ '<' := fun c hc => (h c hc).2.1
  have hh : ∀ c ∈ l, c ≠ '#' := fun c hc => (h c hc).2.2.1
  have hs : ∀ c ∈ l, isSpTab c = false := fun c hc => (h c hc).2.2.2
  -- every character of the output is a newline or a character of `l`
  have hmem : ∀ c ∈ optimizeForLLMs l, c ≠ '!' ∧ c ≠ '<' ∧ c ≠ '#' ∧ isSpTab c = false := by
    intro c hc
    rcases mem_optimize_of_clean hb hl hh hs hc with rfl | hcl
    · exact ⟨by decide, by decide, by decide, by decide⟩
    · exact h c hcl
  have hnr : noRun4 (optimizeForLLMs l) := noRun4_optimize_of_no_hash_sptab hh hs
  rw [optimize_eq_of_clean (fun c hc => (hmem c hc).1) (fun c hc => (hmem c hc).2.1)
    (fun c hc => (hmem c hc).2.2.1) (fun c hc => (hmem c hc).2.2.2)]
  rw [collapseNewlines_eq_self hnr]
  rw [optimize_eq_of_clean hb hl hh hs]
  exact trim_append_stable isJsWS_newline (collapseNewlines l)

/-! ## One image-removal pass either fixes its input or shrinks it -/

theorem removeImagesAux_eq_or_lt : ∀ (fuel : Nat) (l : List Char),
    removeImagesAux fuel l = l ∨ (removeImagesAux fuel l).length < l.length := by
  intro fuel
  induction fuel with
  | zero => intro l; exact Or.inl rfl
  | succ f ih =>
    intro l
    match l with
    | [] => exact Or.inl rfl
    | c :: r =>
      rw [removeImagesAux]
      cases htry : tryImage (c :: r) with
      | some rest =>
        right
        have h1 := (tryImage_sublist htry).2
        have h2 := removeImagesAux_length_le f rest
        simp only [List.length_cons] at h1 ⊢
        omega
      | none =>
        rcases ih r with heq | hlt
        · exact Or.inl (by rw [heq])
        · right; simp only [List.length_cons]; omega

theorem removeImages_eq_or_lt (l : List Char) :
    removeImages l = l ∨ (removeImages l).length < l.length :=
  removeImagesAux_eq_or_lt l.length l

/-- A string fixed by one removal pass matches the image regex nowhere. -/
theorem hasImage_false_of_fixed : ∀ (fuel : Nat) (l : List Char), l.length ≤ fuel →
    removeImagesAux fuel l = l → hasImage l = false := by
  intro fuel
  induction fuel with
  | zero =>
    intro l hlen _
    have : l = [] := List.length_eq_zero.mp (Nat.le_zero.mp hlen)
    subst this
    rfl
  | succ f ih =>
    intro l hlen hfix
    match l with
    | [] => rfl
    | c :: r =>
      rw [removeImagesAux] at hfix
      cases htry : tryImage (c :: r) with
      | some rest =>
        rw [htry] at hfix
        exfalso
        have h1 := (tryImage_sublist htry).2
        have h2 := removeImagesAux_length_le f rest
        have h3 := congrArg List.length hfix
        simp only [List.length_cons] at h1 h3
        omega
      | none =>
        rw [htry] at hfix
        have hr : removeImagesAux f r = r := by
          have := List.cons.inj hfix
          exact this.2
        rw [hasImage, htry]
        simp only [Option.isSome_none, Bool.false_or]
        exact ih r (by simpa [Nat.succ_le_succ_iff] using hlen) hr

theorem removeImages_fixpoint_of_iterAux : ∀ (fuel : Nat) (l : List Char), l.length ≤ fuel →
    removeImages (removeImagesIterAux fuel l) = removeImagesIterAux fuel l := by
  intro fuel
  induction fuel with
  | zero =>
    intro l hlen
    have : l = [] := List.length_eq_zero.mp (Nat.le_zero.mp hlen)
    subst this
    rfl
  | succ f ih =>
    intro l hlen
    rw [removeImagesIterAux]
    by_cases hfix : removeImages l = l
    · simpa [hfix] using hfix
    · simp only [hfix, if_false]
      apply ih
      rcases removeImages_eq_or_lt l with h | h
      · exact absurd h hfix
      · omega

/-- Iterating the image-removal pass to its fixpoint leaves a string in
which the image regex matches nowhere. -/
theorem hasImage_removeImagesIter (l : List Char) :
    hasImage (removeImagesIter l) = false := by
  have hfix := removeImages_fixpoint_of_iterAux l.length l (Nat.le_refl _)
  exact hasImage_false_of_fixed (removeImagesIterAux l.length l).length _
    (Nat.le_refl _) hfix

/-! ## Behavior of the heading pass on a well-formed heading line -/

theorem hGo_hash_replicate : ∀ (m j : Nat) (tail : List Char),
    hGo (.hash j) (List.replicate m '#' ++ tail) = hGo (.hash (j + m)) tail := by
  intro m
  induction m with
  | zero => intro j tail; rfl
  | succ n ih =>
    intro j tail
    rw [List.replicate_succ, List.cons_append, hGo]
    simp only [beq_self_eq_true, if_true]
    rw [ih (j + 1) tail]
    have harith : j + 1 + n = j + (n + 1) := by omega
    rw [harith]

theorem hGo_ws_skip : ∀ (ws : List Char), ws ≠ [] →
    (∀ c ∈ ws, isJsWS c = true ∧ isLineTerm c = false) →
    ∀ (k : Nat) (b : Bool) (rest : List Char),
      hGo (.ws k b) (ws ++ rest) = hGo (.ws k false) rest := by
  intro ws
  induction ws with
  | nil => intro h; exact absurd rfl h
  | cons c ws' ih =>
    intro _ hws k b rest
    rw [List.cons_append, hGo]
    have hc := hws c (by simp)
    rw [if_pos hc.1, hc.2]
    cases hws' : ws' with
    | nil => rfl
    | cons d t =>
      rw [← hws']
      exact ih (by simp [hws']) (fun x hx => hws x (by simp [hx])) k false rest

theorem hGo_norm_false_termfree {l : List Char}
    (h : ∀ c ∈ l, isLineTerm c = false) : hGo (.norm false) l = l := by
  induction l with
  | nil => rfl
  | cons c r ih =>
    rw [hGo]
    simp only [Bool.false_and, Bool.false_eq_true, if_false]
    rw [h c (by simp), ih (fun x hx => h x (by simp [hx]))]

/-- On a single heading line (1-6 hashes, then a nonempty whitespace run
containing no line terminator, then a rest that starts with a
non-whitespace character and contains no line terminator), the heading
pass rewrites the line to the hashes followed by exactly one space,
preserving the hash count and the rest of the line. -/
theorem headingNormalize_heading_line {k : Nat} {ws rest : List Char}
    (hk1 : 1 ≤ k) (hk6 : k ≤ 6) (hws_ne : ws ≠ [])
    (hws : ∀ c ∈ ws, isJsWS c = true ∧ isLineTerm c = false)
    (hrest_hd : rest = [] ∨ ∃ d r', rest = d :: r' ∧ isJsWS d = false)
    (hrest : ∀ c ∈ rest, isLineTerm c = false) :
    headingNormalize (List.replicate k '#' ++ ws ++ rest) =
      List.replicate k '#' ++ ' ' :: rest := by
  unfold headingNormalize
  obtain ⟨k', rfl⟩ : ∃ k', k = k' + 1 := ⟨k - 1, by omega⟩
  have hrest_done : hGo (.ws (1 + k') false) rest =
      List.replicate (1 + k') '#' ++ ' ' :: rest := by
    cases hrc : rest with
    | nil => rw [hGo]
    | cons d r' =>
      rcases hrest_hd with h | ⟨d', r'', hdr, hd⟩
      · simp [hrc] at h
      · rw [hrc] at hdr
        obtain ⟨rfl, rfl⟩ := List.cons.inj hdr
        rw [hGo, if_neg (by simp [hd])]
        simp only [Bool.false_and, Bool.false_eq_true, if_false]
        rw [hrest d (by simp [hrc])]
        rw [hGo_norm_false_termfree (fun x hx => hrest x (by simp [hrc, hx]))]
  rw [List.replicate_succ, List.cons_append, List.cons_append, hGo]
  rw [if_pos (by simp)]
  rw [List.append_assoc]
  rw [hGo_hash_replicate k' 1 (ws ++ rest)]
  cases hwsc : ws with
  | nil => exact absurd hwsc hws_ne
  | cons w ws' =>
    rw [List.cons_append, hGo]
    have hw := hws w (by simp [hwsc])
    have hwne : (w == '#') = false := by
      simp only [beq_eq_false_iff_ne]
      exact ne_hash_of_isJsWS hw.1
    rw [hwne]
    simp only [Bool.false_eq_true, if_false]
    rw [if_pos (by simp only [Bool.and_eq_true, decide_eq_true_eq, hw.1, and_true]; omega)]
    rw [hw.2]
    have hskip : hGo (.ws (1 + k') false) (ws' ++ rest) =
        hGo (.ws (1 + k') false) rest := by
      cases hws'c : ws' with
      | nil => rw [List.nil_append]
      | cons w2 t2 =>
        exact hGo_ws_skip (w2 :: t2) (by simp)
          (fun x hx => hws x (by simp [hwsc, hws'c]; right; simpa using hx))
          (1 + k') false rest
    rw [hskip, hrest_done, Nat.add_comm 1 k', List.replicate_succ, List.cons_append]

/-! ## Occurrence counting for the Mistral page headers -/

theorem countOcc_append_ge (pat a b : List Char) :
    countOcc pat a + countOcc pat b ≤ countOcc pat (a ++ b) := by
  induction a with
  | nil => simp [countOcc]
  | cons c a' ih =>
    have hmono : (if pat.isPrefixOf (c :: a') then 1 else 0) ≤
        (if pat.isPrefixOf (c :: (a' ++ b)) then 1 else 0) := by
      by_cases hp : pat.isPrefixOf (c :: a') = true
      · have hq : pat.isPrefixOf (c :: (a' ++ b)) = true := by
          rw [List.isPrefixOf_iff_prefix] at hp ⊢
          obtain ⟨t, ht⟩ := hp
          refine ⟨t ++ b, ?_⟩
          rw [← List.append_assoc, ht, List.cons_append]
        rw [if_pos hp, if_pos hq]
      · rw [if_neg hp]
        exact Nat.zero_le _
    rw [List.cons_append, countOcc, countOcc]
    omega

theorem countOcc_flatten_ge (pat : List Char) :
    ∀ (L : List (List Char)), (∀ x ∈ L, 1 ≤ countOcc pat x) →
      L.length ≤ countOcc pat L.flatten := by
  intro L
  induction L with
  | nil => intro _; simp
  | cons x L' ih =>
    intro h
    rw [List.flatten_cons]
    have h1 := countOcc_append_ge pat x L'.flatten
    have h2 := ih (fun y hy => h y (by simp [hy]))
    have h3 := h x (by simp)
    simp only [List.length_cons]
    omega

theorem countOcc_pageHeader_ge (n : Nat) :
    1 ≤ countOcc "## Page".data (pageHeader n) := by
  unfold pageHeader
  have h0 : countOcc "## Page".data "\n\n---\n\n## Page ".data = 1 := by decide
  have h1 := countOcc_append_ge "## Page".data "\n\n---\n\n## Page ".data
    ((Nat.repr n).data ++ "\n\n".data)
  rw [← List.append_assoc] at h1
  omega

/-- With more than one page, every page of the concatenation contributes at
least one `"## Page"` occurrence. -/
theorem countOcc_mistralConcat_ge {pages : List (Option (List Char))}
    (h : 1 < pages.length) :
    pages.length ≤ countOcc "## Page".data (mistralConcat pages) := by
  unfold mistralConcat
  have hlen : (pages.enum.map fun ip =>
      (if 1 < pages.length then pageHeader (ip.1 + 1) else []) ++ ip.2.getD []).length =
      pages.length := by
    rw [List.length_map, List.enum_length]
  have hmain := countOcc_flatten_ge "## Page".data
    (pages.enum.map fun ip =>
      (if 1 < pages.length then pageHeader (ip.1 + 1) else []) ++ ip.2.getD [])
    (by
      intro x hx
      rw [List.mem_map] at hx
      obtain ⟨ip, _, rfl⟩ := hx
      rw [if_pos h]
      have ha := countOcc_append_ge "## Page".data (pageHeader (ip.1 + 1)) (ip.2.getD [])
      have hb := countOcc_pageHeader_ge (ip.1 + 1)
      omega)
  rw [hlen] at hmain
  exact hmain

/-! ## The page-count estimate is the ceiling of `length / 3000` -/

theorem estimatePages_eq_ceil (L : Nat) :
    estimatePages L = max 1 ⌈(L : ℚ) / 3000⌉₊ := by
  unfold estimatePages
  congr 1
  rcases Nat.eq_zero_or_pos L with rfl | hpos
  · simp
  · set n := (L + 2999) / 3000 with hn
    have hdm := Nat.div_add_mod (L + 2999) 3000
    have hmod : (L + 2999) % 3000 < 3000 := Nat.mod_lt _ (by norm_num)
    have hn1 : 1 ≤ n := by
      rw [hn]
      have : 3000 ≤ L + 2999 := by omega
      exact Nat.one_le_div_iff (by norm_num) |>.mpr this
    have hub : L ≤ 3000 * n := by omega
    have hlb : 3000 * (n - 1) < L := by omega
    symm
    rw [Nat.ceil_eq_iff (by omega)]
    constructor
    · rw [lt_div_iff₀ (by norm_num : (0 : ℚ) < 3000)]
      have hcast : ((n - 1 : Nat) : ℚ) * 3000 < (L : ℚ) := by
        exact_mod_cast (by omega : (n - 1) * 3000 < L)
      exact hcast
    · rw [div_le_iff₀ (by norm_num : (0 : ℚ) < 3000)]
      exact_mod_cast (by omega : L ≤ n * 3000)

/-- Unfolding `POST` on a present file: validation then dispatch. -/
theorem POST_some (f : FileModel) (prov : Option (List Char)) (m o : OcrResult) :
    POST ⟨some f, prov⟩ m o =
      if f.type = "application/pdf".data then
        .success
          (optimizeForLLMs (if resolveProvider prov = "openai".data then o else m).text)
          (if resolveProvider prov = "openai".data then o else m).pageCount
          f.name (resolveProvider prov)
      else .error 400 "Only PDF files are supported".data := rfl

/-! # Claim theorems -/

/-- C1, counterexample: with 3 Mistral pages `"A"`, `"B"`, `"C"`, the
pre-normalization concatenation contains 3 (not 2) occurrences of
`"## Page"`, and page 1 *is* preceded by the separator and heading:
the text begins with `"\n\n---\n\n## Page 1\n\n"`. -/
theorem claim_C1_counterexample :
    countOcc "## Page".data
      (mistralConcat [some "A".data, some "B".data, some "C".data]) = 3 ∧
    "\n\n---\n\n## Page 1\n\n".data <+:
      mistralConcat [some "A".data, some "B".data, some "C".data] :=
  ⟨by decide, by decide⟩

/-- C1, amended: when more than one page is present, *every* page
(including the first) is preceded by the horizontal-rule separator and the
`## Page N` heading, because the code conditions the header on
`pages.length > 1`, not on the page index; so an n-page result contains at
least n occurrences of `"## Page"`, and the 3-page `"A"`,`"B"`,`"C"`
example produces exactly the concatenation below, with 3 headings. -/
theorem claim_C1_every_page_has_header :
    (∀ pages : List (Option (List Char)), 1 < pages.length →
      pages.length ≤ countOcc "## Page".data (mistralConcat pages)) ∧
    mistralConcat [some "A".data, some "B".data, some "C".data] =
      "\n\n---\n\n## Page 1\n\nA\n\n---\n\n## Page 2\n\nB\n\n---\n\n## Page 3\n\nC".data :=
  ⟨fun _ h => countOcc_mistralConcat_ge h, by decide⟩

/-- C1, witness: the amended claim applied to the concrete 3-page input. -/
theorem claim_C1_witness :
    1 < ([some "A".data, some "B".data, some "C".data] : List (Option (List Char))).length ∧
    3 ≤ countOcc "## Page".data
      (mistralConcat [some "A".data, some "B".data, some "C".data]) :=
  ⟨by decide, claim_C1_every_page_has_header.1
    [some "A".data, some "B".data, some "C".data] (by decide)⟩

/-- C2, counterexample: the input `"A\n\n \n\nB"` normalizes to
`"A\n\n\n\nB\n"`, which contains a run of 4 consecutive newlines: the
whitespace-only line is stripped *after* newline collapsing, merging two
2-newline runs into a 4-newline run. -/
theorem claim_C2_counterexample :
    optimizeForLLMs "A\n\n \n\nB".data = "A\n\n\n\nB\n".data ∧
    List.replicate 4 '\n' <:+: optimizeForLLMs "A\n\n \n\nB".data :=
  ⟨by decide, by decide⟩

/-- C2, amended: the guarantee holds for inputs containing no space, tab,
or `#` characters (so that the trailing-whitespace pass, which runs after
the newline collapse and can merge newline runs across whitespace-only
lines, has nothing to remove): for such inputs the normalizer's output
contains no run of 4 or more consecutive newlines. -/
theorem claim_C2_no_long_runs :
    ∀ s : List Char, (∀ c ∈ s, c ≠ ' ' ∧ c ≠ '\t' ∧ c ≠ '#') →
      ¬ List.replicate 4 '\n' <:+: optimizeForLLMs s := by
  intro s h
  exact noRun4_optimize_of_no_hash_sptab (fun c hc => (h c hc).2.2)
    (fun c hc => by
      have hch := h c hc
      simp only [isSpTab, Bool.or_eq_false_iff, beq_eq_false_iff_ne]
      exact ⟨hch.1, hch.2.1⟩)

/-- C2, witness: the amended claim applied to `"A\n\n\n\n\nB"`. -/
theorem claim_C2_witness :
    (∀ c ∈ ("A\n\n\n\n\nB".data : List Char), c ≠ ' ' ∧ c ≠ '\t' ∧ c ≠ '#') ∧
    ¬ List.replicate 4 '\n' <:+: optimizeForLLMs "A\n\n\n\n\nB".data :=
  ⟨by decide, claim_C2_no_long_runs "A\n\n\n\n\nB".data (by decide)⟩

/-- C3, counterexample: the normalizer is not idempotent.  On `" ##  A"`
the first pass only removes the leading space (the heading regex does not
match because the line starts with a space), producing `"##  A\n"`; the
second pass then normalizes the now line-initial heading to `"## A\n"`. -/
theorem claim_C3_counterexample :
    optimizeForLLMs " ##  A".data = "##  A\n".data ∧
    optimizeForLLMs (optimizeForLLMs " ##  A".data) = "## A\n".data ∧
    optimizeForLLMs (optimizeForLLMs " ##  A".data) ≠ optimizeForLLMs " ##  A".data :=
  ⟨by decide, by decide, by decide⟩

/-- C3, amended: the normalizer is idempotent on inputs free of the
characters that make a first pass expose new work for a second pass — no
`!` (image pattern), no `<` (img tag), no `#` (heading marker), and no
space or tab (line-trailing whitespace / leading whitespace hiding a
heading). -/
theorem claim_C3_idempotent_on_clean :
    ∀ s : List Char,
      (∀ c ∈ s, c ≠ '!' ∧ c ≠ '<' ∧ c ≠ '#' ∧ c ≠ ' ' ∧ c ≠ '\t') →
      optimizeForLLMs (optimizeForLLMs s) = optimizeForLLMs s := by
  intro s h
  apply optimize_idempotent_of_clean
  intro c hc
  have hch := h c hc
  refine ⟨hch.1, hch.2.1, hch.2.2.1, ?_⟩
  simp only [isSpTab, Bool.or_eq_false_iff, beq_eq_false_iff_ne]
  exact ⟨hch.2.2.2.1, hch.2.2.2.2⟩

/-- C3, witness: the amended claim applied to `"A\n\nB\n"`. -/
theorem claim_C3_witness :
    (∀ c ∈ ("A\n\nB\n".data : List Char),
      c ≠ '!' ∧ c ≠ '<' ∧ c ≠ '#' ∧ c ≠ ' ' ∧ c ≠ '\t') ∧
    optimizeForLLMs (optimizeForLLMs "A\n\nB\n".data) = optimizeForLLMs "A\n\nB\n".data :=
  ⟨by decide, claim_C3_idempotent_on_clean "A\n\nB\n".data (by decide)⟩

/-- C4, counterexample: removal of one image reference can juxtapose the
surrounding text into a *new* image reference, so the normalizer output is
not image-free.  On `"!![x](y)[a](b)"`, removing `![x](y)` glues the
leading `!` to `[a](b)`: the output is `"![a](b)\n"`, which matches the
image regex. -/
theorem claim_C4_counterexample :
    hasImage "!![x](y)[a](b)".data = true ∧
    optimizeForLLMs "!![x](y)[a](b)".data = "![a](b)\n".data ∧
    hasImage (optimizeForLLMs "!![x](y)[a](b)".data) = true :=
  ⟨by decide, by decide, by decide⟩

/-- C4, amended: a *single* image-removal pass (which is what the
normalizer performs) can leave image references created by juxtaposition;
iterating the image-removal pass until it reaches a fixpoint does produce a
string in which the image regex matches nowhere. -/
theorem claim_C4_iterated_removal_clears_images :
    ∀ l : List Char, hasImage (removeImagesIter l) = false :=
  hasImage_removeImagesIter

/-- C5, counterexample: on `"#Heading\n\n\n\n\nText  \n"` the normalizer
does *not* insert a space after `#`: the heading regex `^(#{1,6})\s+`
requires whitespace after the hashes, and `#Heading` has none.  The output
is `"#Heading\n\n\nText\n"`, not the spec's `"# Heading\n\n\nText\n"`. -/
theorem claim_C5_counterexample :
    optimizeForLLMs "#Heading\n\n\n\n\nText  \n".data ≠ "# Heading\n\n\nText\n".data :=
  by decide

/-- C5, amended: the concrete output on `"#Heading\n\n\n\n\nText  \n"` is
`"#Heading\n\n\nText\n"` — the 5-newline run collapses to 3, the trailing
spaces after `Text` are stripped, the trailing newline is normalized to
exactly one, and `#Heading` is left untouched. -/
theorem claim_C5_concrete_output :
    optimizeForLLMs "#Heading\n\n\n\n\nText  \n".data = "#Heading\n\n\nText\n".data :=
  by decide

/-- C6, counterexample: the heading step *can* alter the division of the
document into lines, because `\s` also matches line terminators: on
`"#\nText"` the whitespace run after `#` is the newline itself, so the
replacement joins the two lines into `"# Text"`. -/
theorem claim_C6_counterexample :
    headingNormalize "#\nText".data = "# Text".data ∧
    List.count '\n' "#\nText".data = 1 ∧
    List.count '\n' (headingNormalize "#\nText".data) = 0 :=
  ⟨by decide, by decide, by decide⟩

/-- C6, amended: on a line that begins with 1-6 `#` followed by a nonempty
whitespace run, the heading step rewrites the hashes-plus-whitespace to the
hashes followed by exactly one space, preserving the hash count and the
rest of the line unchanged — provided the consumed whitespace run contains
no line terminator (otherwise the following line is joined, altering the
line division, as the counterexample shows). -/
theorem claim_C6_heading_line (k : Nat) (ws rest : List Char)
    (hk1 : 1 ≤ k) (hk6 : k ≤ 6) (hws_ne : ws ≠ [])
    (hws : ∀ c ∈ ws, isJsWS c = true ∧ isLineTerm c = false)
    (hrest_hd : rest = [] ∨ ∃ d r', rest = d :: r' ∧ isJsWS d = false)
    (hrest : ∀ c ∈ rest, isLineTerm c = false) :
    headingNormalize (List.replicate k '#' ++ ws ++ rest) =
      List.replicate k '#' ++ ' ' :: rest :=
  headingNormalize_heading_line hk1 hk6 hws_ne hws hrest_hd hrest

/-- C6, witness: `"## \tx"` normalizes to `"## x"` with both hashes kept. -/
theorem claim_C6_witness :
    headingNormalize (List.replicate 2 '#' ++ " \t".data ++ "x".data) =
      List.replicate 2 '#' ++ ' ' :: "x".data :=
  claim_C6_heading_line 2 " \t".data "x".data (by decide) (by decide) (by decide)
    (by decide) (Or.inr ⟨'x', [], rfl, by decide⟩) (by decide)

/-- C7: the normalizer output always ends in exactly one trailing newline;
the empty input and whitespace-only inputs produce exactly `"\n"`. -/
theorem claim_C7_trailing_newline :
    ∀ s : List Char,
      trailingNewlineCount (optimizeForLLMs s) = 1 ∧
      (s = [] → optimizeForLLMs s = ['\n']) ∧
      ((∀ c ∈ s, isJsWS c = true) → optimizeForLLMs s = ['\n']) := by
  intro s
  refine ⟨trailingNewlineCount_optimize s, ?_, optimizeForLLMs_all_ws⟩
  rintro rfl
  decide

/-- C7, witness: the whitespace-only input `" \t\n"` yields `"\n"`, with a
trailing-newline run of length exactly 1. -/
theorem claim_C7_witness :
    trailingNewlineCount (optimizeForLLMs " \t\n".data) = 1 ∧
    optimizeForLLMs " \t\n".data = ['\n'] :=
  ⟨(claim_C7_trailing_newline " \t\n".data).1,
   (claim_C7_trailing_newline " \t\n".data).2.2 (by decide)⟩

/-- C8: the OpenAI branch reports `max(1, ceil(L / 3000))` pages for
extracted text of length `L`; length 9000 gives 3 pages and length 0 gives
1 page. -/
theorem claim_C8_page_count :
    (∀ items : List OAItem,
      (processWithOpenAI items).pageCount =
        max 1 ⌈((extractText items).length : ℚ) / 3000⌉₊) ∧
    (processWithOpenAI [.message [.outputText (List.replicate 9000 'a')]]).pageCount = 3 ∧
    (processWithOpenAI []).pageCount = 1 := by
  refine ⟨fun items => estimatePages_eq_ceil _, ?_, by decide⟩
  show estimatePages (extractText [.message [.outputText (List.replicate 9000 'a')]]).length = 3
  have hext : ∀ t : List Char, extractText [.message [.outputText t]] = t := by
    intro t
    simp [extractText]
  rw [hext, List.length_replicate]
  decide

/-- C9, counterexample: for the unrecognized provider string `"foo"` the
handler dispatches to Mistral (the response carries the Mistral oracle's
text and page count) but the response's `provider` field is the raw
`"foo"`, not the identifier `"mistral"` of the provider actually used. -/
theorem claim_C9_counterexample :
    POST ⟨some ⟨"doc.pdf".data, "application/pdf".data⟩, some "foo".data⟩
        ⟨"M".data, 7⟩ ⟨"O".data, 9⟩ =
      .success "M\n".data 7 "doc.pdf".data "foo".data ∧
    "foo".data ≠ "mistral".data :=
  ⟨by decide, by decide⟩

/-- C9, amended: on a successful request the `provider` field *echoes* the
resolved provider string: `"mistral"` when the field is absent or the empty
string, and otherwise the supplied string verbatim — even when it is
unrecognized.  Dispatch uses OpenAI exactly when the resolved string equals
`"openai"` and Mistral in every other case, so for an unrecognized supplied
value the reported provider differs from the provider actually used. -/
theorem claim_C9_provider_echoed :
    ∀ (form : FormData) (f : FileModel) (m o : OcrResult),
      form.file = some f → f.type = "application/pdf".data →
      POST form m o =
        .success
          (optimizeForLLMs
            (if resolveProvider form.provider = "openai".data then o else m).text)
          (if resolveProvider form.provider = "openai".data then o else m).pageCount
          f.name (resolveProvider form.provider) ∧
      ((form.provider = none ∨ form.provider = some []) →
        resolveProvider form.provider = "mistral".data) ∧
      (∀ p, form.provider = some p → p ≠ [] → resolveProvider form.provider = p) := by
  intro form f m o hf ht
  refine ⟨?_, ?_, ?_⟩
  · obtain ⟨file, prov⟩ := form
    have hfile : file = some f := hf
    subst hfile
    rw [POST_some, if_pos ht]
  · rintro (hp | hp) <;> simp [resolveProvider, hp]
  · intro p hp hne
    simp [resolveProvider, hp, hne]

/-- C9, witness: the amended claim applied to a PDF upload with
provider string `"x"`. -/
theorem claim_C9_witness :
    POST ⟨some ⟨"d.pdf".data, "application/pdf".data⟩, some "x".data⟩
        ⟨"M".data, 7⟩ ⟨"O".data, 9⟩ =
      .success
        (optimizeForLLMs
          (if resolveProvider (some "x".data) = "openai".data
            then (⟨"O".data, 9⟩ : OcrResult) else ⟨"M".data, 7⟩).text)
        (if resolveProvider (some "x".data) = "openai".data
          then (⟨"O".data, 9⟩ : OcrResult) else ⟨"M".data, 7⟩).pageCount
        "d.pdf".data (resolveProvider (some "x".data)) :=
  (claim_C9_provider_echoed ⟨some ⟨"d.pdf".data, "application/pdf".data⟩, some "x".data⟩
    ⟨"d.pdf".data, "application/pdf".data⟩ ⟨"M".data, 7⟩ ⟨"O".data, 9⟩ rfl rfl).1

/-- C10: the handler rejects with 400 `"No file provided"` when the form
has no file, and with 400 `"Only PDF files are supported"` when the file's
declared type is not `application/pdf` — in both cases for *any* provider
oracle values, i.e. before and independently of any provider call. -/
theorem claim_C10_validation :
    ∀ (form : FormData) (m o : OcrResult),
      (form.file = none → POST form m o = .error 400 "No file provided".data) ∧
      (∀ f, form.file = some f → f.type ≠ "application/pdf".data →
        POST form m o = .error 400 "Only PDF files are supported".data) := by
  intro form m o
  constructor
  · intro hf
    obtain ⟨file, prov⟩ := form
    have hfile : file = none := hf
    subst hfile
    rfl
  · intro f hf ht
    obtain ⟨file, prov⟩ := form
    have hfile : file = some f := hf
    subst hfile
    rw [POST_some, if_neg ht]

/-- C10, witness: both rejections at concrete inputs, with two distinct
oracle values showing no dependence on the providers. -/
theorem claim_C10_witness :
    POST ⟨none, none⟩ ⟨"M".data, 1⟩ ⟨"O".data, 2⟩ =
      .error 400 "No file provided".data ∧
    POST ⟨some ⟨"a.txt".data, "text/plain".data⟩, some "openai".data⟩
        ⟨"M".data, 1⟩ ⟨"O".data, 2⟩ =
      .error 400 "Only PDF files are supported".data :=
  ⟨(claim_C10_validation ⟨none, none⟩ ⟨"M".data, 1⟩ ⟨"O".data, 2⟩).1 rfl,
   (claim_C10_validation ⟨some ⟨"a.txt".data, "text/plain".data⟩, some "openai".data⟩
      ⟨"M".data, 1⟩ ⟨"O".data, 2⟩).2
      ⟨"a.txt".data, "text/plain".data⟩ rfl (by decide)⟩

end PdfToLlms
